import Mathlib

/-!
Verification development for the health-monitor repository.

Python strings are embedded as `List Char`; SQLite TEXT comparison (memcmp on
UTF-8 bytes) is embedded as lexicographic comparison on code points, which
agrees with memcmp because UTF-8 is order preserving.  Machine-level details
that the embedded code never computes with (REAL columns, audio sample values)
are carried as opaque type parameters.  Python standard-library calls made by
the sources (str.strip, str.split, str.splitlines, int, json.loads) are
modelled by executable definitions documented at their declaration sites.
-/

/-- Whitespace recognised by the model of str.strip and of JSON
whitespace skipping (space, newline, tab, carriage return). -/
def isWs (c : Char) : Bool := c = ' ' || c = '\n' || c = '\t' || c = '\r'

/-- ASCII decimal digit test. -/
def isDigit (c : Char) : Bool := '0' ≤ c && c ≤ '9'

/-- The backtick character, written by code point to keep literals plain. -/
def backtick : Char := Char.ofNat 96

/-- The three-backtick fence used by parse_events in voice.py. -/
def tick3 : List Char := [backtick, backtick, backtick]

/-- The opening curly brace character. -/
def openBrace : Char := Char.ofNat 123

/-- The closing curly brace character. -/
def closeBrace : Char := Char.ofNat 125

/-- Drop leading whitespace (model of the leading half of str.strip,
and of JSON whitespace skipping). -/
def skipWs (l : List Char) : List Char := l.dropWhile isWs

/-- Drop trailing whitespace. -/
def dropTrailingWs (l : List Char) : List Char :=
  ((l.reverse).dropWhile isWs).reverse

/-- Model of Python str.strip() with no argument: remove leading and
trailing whitespace.  (Python strips a slightly larger Unicode whitespace
set; the sources only ever meet ASCII whitespace.) -/
def pyStrip (l : List Char) : List Char := dropTrailingWs (l.dropWhile isWs)

/-- Does the second list start with the first (model of str.startswith)? -/
def startsWithChars : List Char → List Char → Bool
  | [], _ => true
  | _ :: _, [] => false
  | p :: ps, c :: cs => p = c && startsWithChars ps cs

/-- Model of Python str.split(sep) for a single-character separator:
always returns at least one piece, empty pieces included. -/
def splitChar (sep : Char) : List Char → List (List Char)
  | [] => [[]]
  | c :: rest =>
    if c = sep then [] :: splitChar sep rest
    else
      match splitChar sep rest with
      | h :: t => (c :: h) :: t
      | [] => [[c]]

/-- Model of Python sep.join for a single-character separator. -/
def joinChar (sep : Char) : List (List Char) → List Char
  | [] => []
  | x :: xs =>
    match xs with
    | [] => x
    | _ :: _ => x ++ sep :: joinChar sep xs

/-- Model of Python str.splitlines restricted to the newline character:
split on newline and drop the final empty piece produced by a trailing
newline; the empty string gives an empty list.  (Python also splits on
other line terminators; the sources only produce plain newlines.) -/
def pySplitlines (l : List Char) : List (List Char) :=
  match l with
  | [] => []
  | _ :: _ =>
    if l.getLast? = some '\n' then (splitChar '\n' l).dropLast
    else splitChar '\n' l

/-- Byte-order strict comparison of two embedded strings (model of the
TEXT ordering SQLite applies in ORDER BY and in the comparisons of
timestamp and day columns). -/
def ltChars : List Char → List Char → Bool
  | [], [] => false
  | [], _ :: _ => true
  | _ :: _, [] => false
  | a :: as, b :: bs =>
    if a.toNat < b.toNat then true
    else if b.toNat < a.toNat then false
    else ltChars as bs

/-- Non-strict version of `ltChars`. -/
def leChars (x y : List Char) : Bool := !(ltChars y x)

/-- Numeric value of a decimal digit character. -/
def digitVal (c : Char) : Nat := c.toNat - '0'.toNat

/-- Decimal value of a digit list. -/
def digitsToNat (l : List Char) : Nat := l.foldl (fun acc c => acc * 10 + digitVal c) 0

/-- Model of Python int(str) on the stripped argument: optional sign
followed by at least one digit.  (Python additionally allows digit
group underscores; the sources only pass plain digit strings.) -/
def pyIntCore : List Char → Option Int
  | [] => none
  | '-' :: ds => if !ds.isEmpty && ds.all isDigit then some (-(digitsToNat ds : Int)) else none
  | '+' :: ds => if !ds.isEmpty && ds.all isDigit then some ((digitsToNat ds : Int)) else none
  | ds => if ds.all isDigit then some ((digitsToNat ds : Int)) else none

/-- Model of Python int(str): int strips surrounding whitespace itself. -/
def pyInt (l : List Char) : Option Int := pyIntCore (pyStrip l)

/-- Embedding of scripts/garmin_sync.py _time_str_to_seconds: empty input
gives zero; otherwise split off a sub-second fraction at the first dot,
split the rest on colons, convert the first three pieces with int and
combine; any failure inside the try block (missing pieces or non-numeric
pieces) is caught and gives zero.  Totality of this definition embeds the
catch-all except branch: no input raises. -/
def time_str_to_seconds (t : List Char) : Int :=
  if t.isEmpty then 0
  else
    let parts := splitChar ':' ((splitChar '.' t).headD [])
    match parts[0]?, parts[1]?, parts[2]? with
    | some p0, some p1, some p2 =>
      match pyInt p0, pyInt p1, pyInt p2 with
      | some h, some m, some s => h * 3600 + m * 60 + s
      | _, _, _ => 0
    | _, _, _ => 0

/-- The sources pass nullable SQLite TEXT values (Python None or str) to
_time_str_to_seconds; None takes the same falsy branch as the empty
string. -/
def timeStrToSecondsOpt (o : Option (List Char)) : Int :=
  time_str_to_seconds (o.getD [])

/-! ## EventStore: health_monitor/db.py -/

/-- One row of the events table of db.py. -/
structure EventRow where
  id : Nat
  timestamp : List Char
  tag : List Char
  category : Option (List Char)
  value : Option (List Char)
  notes : Option (List Char)
  source : List Char
deriving Repr, DecidableEq

/-- The events table: rows in insertion order plus the next AUTOINCREMENT
rowid (SQLite assigns 1 to the first row). -/
structure EventStore where
  nextId : Nat
  rows : List EventRow
deriving Repr, DecidableEq

/-- The empty events table right after init_db. -/
def emptyStore : EventStore := { nextId := 1, rows := [] }

/-- The closed tag vocabulary, from TAGS in health_monitor/cli.py. -/
def TAGS : List (List Char) :=
  ["food", "activity", "symptom", "mood", "stress", "sleep", "other"].map String.toList

/-- Embedding of db.py insert_event.  The Python default timestamp
expression is `timestamp or datetime.now(...)`: a missing or falsy (empty)
timestamp is replaced by the current time, which is passed here as the
explicit argument `now`.  The INSERT appends one row with the next rowid
and returns that rowid; no validation of any field is performed. -/
def insert_event (tag : List Char) (category value notes : Option (List Char))
    (source : List Char) (timestamp : Option (List Char)) (now : List Char)
    (st : EventStore) : Nat × EventStore :=
  let ts := match timestamp with
    | none => now
    | some t => if t.isEmpty then now else t
  (st.nextId,
   { nextId := st.nextId + 1,
     rows := st.rows ++ [{ id := st.nextId, timestamp := ts, tag := tag,
                           category := category, value := value, notes := notes,
                           source := source }] })

/-- The WHERE clause built by db.py query_events: a clause is added only
for a truthy (present and non-empty) tag or since argument. -/
def matchesFilters (tag since : Option (List Char)) (e : EventRow) : Bool :=
  (match tag with
   | some t => if t.isEmpty then true else decide (e.tag = t)
   | none => true)
  &&
  (match since with
   | some s => if s.isEmpty then true else leChars s e.timestamp
   | none => true)

/-- The ORDER BY timestamp DESC ordering of query_events.  SQLite leaves
the order of equal timestamps unspecified in SQL; the scan it performs on
the timestamp index returns equal timestamps by descending rowid, which
is what this relation encodes (later insertions first). -/
def newestFirst (a b : EventRow) : Prop :=
  ltChars b.timestamp a.timestamp = true ∨ (b.timestamp = a.timestamp ∧ b.id ≤ a.id)

instance : DecidableRel newestFirst := fun a b =>
  if h1 : ltChars b.timestamp a.timestamp = true then isTrue (Or.inl h1)
  else if h2 : b.timestamp = a.timestamp ∧ b.id ≤ a.id then isTrue (Or.inr h2)
  else isFalse (by
    intro hc
    rcases hc with hc | hc
    · exact h1 hc
    · exact h2 hc)

/-- Embedding of db.py query_events: filter by the optional clauses, order
newest first, and apply LIMIT.  SQLite treats a negative LIMIT as no
limit, matching its documented behaviour for LIMIT ?. -/
def query_events (st : EventStore) (tag : Option (List Char))
    (since : Option (List Char)) (limit : Int := 50) : List EventRow :=
  let filtered := st.rows.filter (matchesFilters tag since)
  let sorted := List.insertionSort newestFirst filtered
  if limit < 0 then sorted else sorted.take limit.toNat

/-! ## AudioCapture: health_monitor/voice.py record_audio -/

/-- Embedding of voice.py record_audio.  The callback appends a frame
chunk for every delivery that happens before the stop event is set;
`chunks` is the list of chunks accumulated when the stop signal fires
(the cooperative stop makes the capture a pure function of that list).
With no chunks, numpy zeros of one second at the sample rate are
written; otherwise the concatenation of the chunks is written.  Sample
values (float32 in the source) are opaque here; `zero` is the silence
sample. -/
def record_audio {α : Type} (zero : α) (chunks : List (List α))
    (sample_rate : Nat) : List α :=
  if chunks.isEmpty then List.replicate sample_rate zero else chunks.flatten

/-! ## MetricsReconciler: scripts/garmin_sync.py -/

/-- One row of the days_summary table of garmin_summary.db, as selected by
sync.  Columns the script only copies (steps, rhr_avg, hr_avg, stress_avg,
calories_active_avg) are carried opaquely at type alpha; the two sleep
averages are nullable TEXT clock times. -/
structure SummaryRow (α : Type) where
  day : List Char
  steps : α
  rhr_avg : α
  hr_avg : α
  stress_avg : α
  sleep_avg : Option (List Char)
  rem_sleep_avg : Option (List Char)
  calories_active_avg : α
deriving Repr, DecidableEq

/-- One row of the sleep table of garmin.db, as selected by sync. -/
structure SleepRow where
  day : List Char
  total_sleep : Option (List Char)
  rem_sleep : Option (List Char)
deriving Repr, DecidableEq

/-- One row of the garmin_daily table of health.db. -/
structure GarminDailyRow (α : Type) where
  day : List Char
  steps : α
  rhr_avg : α
  hr_avg : α
  stress_avg : α
  sleep_total_sec : Int
  sleep_rem_sec : Int
  calories_active : α
  synced_at : List Char
deriving Repr, DecidableEq

/-- The one fatal error of the sync script: _garmin_conn raises
FileNotFoundError when a source database file is missing (the spec
taxonomy calls this SourceUnavailable). -/
inductive SyncError where
  | sourceUnavailable
deriving Repr, DecidableEq

/-- The rows of `tbl` whose day column equals `d`. -/
def rowsForDay {α : Type} (tbl : List (GarminDailyRow α)) (d : List Char) :
    List (GarminDailyRow α) :=
  tbl.filter (fun q => decide (q.day = d))

/-- Embedding of the INSERT ... ON CONFLICT(day) DO UPDATE SET statement
of sync: if a row with the same day exists it is overwritten in place
with every excluded (new) value, otherwise the new row is appended. -/
def upsertDailyMetrics {α : Type} (tbl : List (GarminDailyRow α))
    (r : GarminDailyRow α) : List (GarminDailyRow α) :=
  if tbl.any (fun q => decide (q.day = r.day)) then
    tbl.map (fun q => if q.day = r.day then r else q)
  else tbl ++ [r]

/-- The ORDER BY day of the days_summary SELECT. -/
def dayLe {α : Type} (a b : SummaryRow α) : Prop := leChars a.day b.day = true

instance {α : Type} : DecidableRel (dayLe (α := α)) := fun a b =>
  if h : leChars a.day b.day = true then isTrue h else isFalse h

/-- sleep_by_day of sync: a dict built by iterating the garmin.db sleep
rows with day at least since; a missing garmin.db (mainDb = none) is
caught and leaves the dict empty.  Python dict insertion lets the last
row for a day win, hence the reversed find. -/
def sleepLookup (mainDb : Option (List SleepRow)) (since d : List Char) :
    Option SleepRow :=
  match mainDb with
  | none => none
  | some mrows =>
    ((mrows.filter (fun s => leChars since s.day)).reverse).find?
      (fun s => decide (s.day = d))

/-- The garmin_daily row sync builds for one days_summary row: detailed
sleep from garmin.db when the day is present there, otherwise the summary
averages, both converted by _time_str_to_seconds; every other column is
copied from the summary row; synced_at is the run timestamp. -/
def buildRow {α : Type} (mainDb : Option (List SleepRow)) (since now : List Char)
    (r : SummaryRow α) : GarminDailyRow α :=
  let sleepPair := match sleepLookup mainDb since r.day with
    | some s => (timeStrToSecondsOpt s.total_sleep, timeStrToSecondsOpt s.rem_sleep)
    | none => (timeStrToSecondsOpt r.sleep_avg, timeStrToSecondsOpt r.rem_sleep_avg)
  { day := r.day, steps := r.steps, rhr_avg := r.rhr_avg, hr_avg := r.hr_avg,
    stress_avg := r.stress_avg, sleep_total_sec := sleepPair.1,
    sleep_rem_sec := sleepPair.2, calories_active := r.calories_active_avg,
    synced_at := now }

/-- Embedding of scripts/garmin_sync.py sync.  `summaryDb` and `mainDb`
are the contents of garmin_summary.db days_summary and garmin.db sleep,
none meaning the file is missing; `since` is the cutoff date and `now`
the run timestamp computed at the top of sync; `health` is the current
garmin_daily table.  The result pairs the Python return or raise with
the garmin_daily table after the run: a missing summary db raises
FileNotFoundError before any write; an empty result set returns 0
without writing; otherwise each selected row is upserted in day order
and the row count is returned. -/
def sync {α : Type} (summaryDb : Option (List (SummaryRow α)))
    (mainDb : Option (List SleepRow)) (since now : List Char)
    (health : List (GarminDailyRow α)) :
    Except SyncError Nat × List (GarminDailyRow α) :=
  match summaryDb with
  | none => (Except.error SyncError.sourceUnavailable, health)
  | some srows =>
    let summary_rows := List.insertionSort dayLe
      (srows.filter (fun r => leChars since r.day))
    if summary_rows.isEmpty then (Except.ok 0, health)
    else
      let final := summary_rows.foldl
        (fun tbl r => upsertDailyMetrics tbl (buildRow mainDb since now r)) health
      (Except.ok summary_rows.length, final)

/-! ## EventExtractor: health_monitor/voice.py parse_events

parse_events calls the remote model, strips the response, removes an
optional surrounding code fence, and hands the remainder to json.loads.
The embedding takes the response text as input; json.loads is modelled
by an executable recursive-descent decoder for the JSON grammar
(jsonParse below). -/

/-- JSON values as decoded by the model of json.loads. -/
inductive Json where
  | null : Json
  | bool : Bool → Json
  | num : Int → Json
  | str : List Char → Json
  | arr : List Json → Json
  | obj : List (List Char × Json) → Json

/-- The error parse_events can raise: json.loads raises JSONDecodeError,
which the spec taxonomy surfaces as MalformedResponse. -/
inductive ExtractError where
  | malformedResponse
deriving Repr, DecidableEq

/-- Single-character JSON string escapes. -/
def escChar (c : Char) : Option Char :=
  if c = '"' then some '"'
  else if c = '\\' then some '\\'
  else if c = '/' then some '/'
  else if c = 'b' then some (Char.ofNat 8)
  else if c = 'f' then some (Char.ofNat 12)
  else if c = 'n' then some '\n'
  else if c = 'r' then some '\r'
  else if c = 't' then some '\t'
  else none

/-- Hexadecimal digit value for the \uXXXX escape, computed on the code
point: 0-9 are points 48-57, a-f are 97-102, A-F are 65-70. -/
def hexVal (c : Char) : Option Nat :=
  if 48 ≤ c.toNat ∧ c.toNat ≤ 57 then some (c.toNat - 48)
  else if 97 ≤ c.toNat ∧ c.toNat ≤ 102 then some (c.toNat - 87)
  else if 65 ≤ c.toNat ∧ c.toNat ≤ 70 then some (c.toNat - 55)
  else none

/-- Scan the body of a JSON string after the opening quote: stop at the
closing quote, decode escapes, reject raw control characters and
unterminated strings, exactly as the strict json.loads decoder does. -/
def scanStr : List Char → Option (List Char × List Char)
  | [] => none
  | c :: rest =>
    if c = '"' then some ([], rest)
    else if c = '\\' then
      match rest with
      | [] => none
      | e :: rest2 =>
        if e = 'u' then
          match rest2 with
          | f1 :: f2 :: f3 :: f4 :: rest3 =>
            match hexVal f1, hexVal f2, hexVal f3, hexVal f4 with
            | some a, some b, some hc, some d =>
              match scanStr rest3 with
              | some (s, r) =>
                some (Char.ofNat (((a * 16 + b) * 16 + hc) * 16 + d) :: s, r)
              | none => none
            | _, _, _, _ => none
          | _ => none
        else
          match escChar e with
          | some ec =>
            match scanStr rest2 with
            | some (s, r) => some (ec :: s, r)
            | none => none
          | none => none
    else if c.toNat < 32 then none
    else
      match scanStr rest with
      | some (s, r) => some (c :: s, r)
      | none => none

/-- A run of decimal digits and the rest of the input. -/
def natDigits (l : List Char) : Option (Nat × List Char) :=
  if (l.takeWhile isDigit).isEmpty then none
  else some (digitsToNat (l.takeWhile isDigit), l.dropWhile isDigit)

/-- The three mutual productions of the JSON grammar: a value, the items
of a non-empty array after its opening bracket, the members of a
non-empty object after its opening brace. -/
inductive PMode where
  | value : PMode
  | items : PMode
  | members : PMode

/-- Fuel-indexed recursive-descent decoder for the JSON grammar, the model
of json.loads.  Numbers are restricted to optionally signed integers
(the sources never produce fractions or exponents).  The items and
members modes return their results wrapped in Json.arr and Json.obj. -/
def parseCore : Nat → PMode → List Char → Option (Json × List Char)
  | 0, _, _ => none
  | Nat.succ n, PMode.value, l =>
    match skipWs l with
    | [] => none
    | c :: rest =>
      if c = '"' then
        match scanStr rest with
        | some (s, r) => some (Json.str s, r)
        | none => none
      else if c = '[' then
        match skipWs rest with
        | c2 :: r2 =>
          if c2 = ']' then some (Json.arr [], r2)
          else parseCore n PMode.items rest
        | [] => none
      else if c = openBrace then
        match skipWs rest with
        | c2 :: r2 =>
          if c2 = closeBrace then some (Json.obj [], r2)
          else parseCore n PMode.members rest
        | [] => none
      else if c = 't' then
        match rest with
        | c1 :: c2 :: c3 :: r2 =>
          if c1 = 'r' then
            if c2 = 'u' then
              if c3 = 'e' then some (Json.bool true, r2) else none
            else none
          else none
        | _ => none
      else if c = 'f' then
        match rest with
        | c1 :: c2 :: c3 :: c4 :: r2 =>
          if c1 = 'a' then
            if c2 = 'l' then
              if c3 = 's' then
                if c4 = 'e' then some (Json.bool false, r2) else none
              else none
            else none
          else none
        | _ => none
      else if c = 'n' then
        match rest with
        | c1 :: c2 :: c3 :: r2 =>
          if c1 = 'u' then
            if c2 = 'l' then
              if c3 = 'l' then some (Json.null, r2) else none
            else none
          else none
        | _ => none
      else if c = '-' then
        match natDigits rest with
        | some (k, r2) => some (Json.num (-(k : Int)), r2)
        | none => none
      else if isDigit c then
        match natDigits (c :: rest) with
        | some (k, r2) => some (Json.num ((k : Int)), r2)
        | none => none
      else none
  | Nat.succ n, PMode.items, l =>
    match parseCore n PMode.value l with
    | some (v, r) =>
      match skipWs r with
      | c2 :: r2 =>
        if c2 = ',' then
          match parseCore n PMode.items r2 with
          | some (Json.arr xs, r3) => some (Json.arr (v :: xs), r3)
          | _ => none
        else if c2 = ']' then some (Json.arr [v], r2)
        else none
      | [] => none
    | none => none
  | Nat.succ n, PMode.members, l =>
    match skipWs l with
    | c :: rest =>
      if c = '"' then
        match scanStr rest with
        | some (k, r) =>
          match skipWs r with
          | c2 :: r2 =>
            if c2 = ':' then
              match parseCore n PMode.value r2 with
              | some (v, r3) =>
                match skipWs r3 with
                | c3 :: r4 =>
                  if c3 = ',' then
                    match parseCore n PMode.members r4 with
                    | some (Json.obj kvs, r5) => some (Json.obj ((k, v) :: kvs), r5)
                    | _ => none
                  else if c3 = closeBrace then some (Json.obj [(k, v)], r4)
                  else none
                | [] => none
              | none => none
            else none
          | [] => none
        | none => none
      else none
    | [] => none

/-- Model of json.loads: decode one JSON value and require only
whitespace after it.  The fuel is an upper bound on the recursion of the
decoder on the given input. -/
def jsonParse (l : List Char) : Option Json :=
  match parseCore (2 * l.length + 2) PMode.value l with
  | some (v, r) => if (skipWs r).isEmpty then some v else none
  | none => none

/-- The code-fence stripping step of parse_events: when the (already
stripped) response starts with three backticks, drop the first line, drop
the last line too when it is itself a fence, and rejoin. -/
def stripFence (raw : List Char) : List Char :=
  if startsWithChars tick3 raw then
    let lines := pySplitlines raw
    let body :=
      if pyStrip (lines.getLastD []) = tick3 then (lines.drop 1).dropLast
      else lines.drop 1
    joinChar '\n' body
  else raw

/-- Embedding of voice.py parse_events, as a function of the model
response text: strip, remove an optional fence, return an empty list for
an empty remainder, otherwise hand the remainder to json.loads and
surface its decode error. -/
def parse_events (resp : List Char) : Except ExtractError Json :=
  let raw := stripFence (pyStrip resp)
  if raw.isEmpty then Except.ok (Json.arr [])
  else
    match jsonParse raw with
    | some v => Except.ok v
    | none => Except.error ExtractError.malformedResponse

/-- A response that wraps body J in a single code fence whose opening
line may carry an info word (the shape claim C8 quantifies over). -/
def wrapFence (info J : List Char) : List Char :=
  tick3 ++ info ++ '\n' :: J ++ '\n' :: tick3

/-! ## Helper lemmas on characters and lists -/

theorem uint32ToNat_inj {a b : UInt32} (h : a.toNat = b.toNat) : a = b := by
  cases a; cases b
  simp only [UInt32.toNat] at h
  congr 1
  exact BitVec.eq_of_toNat_eq h

theorem charToNat_inj {a b : Char} (h : a.toNat = b.toNat) : a = b :=
  Char.eq_of_val_eq (uint32ToNat_inj h)

theorem isWs_not_digit {c : Char} (h : isWs c = true) : isDigit c = false := by
  simp only [isWs, Bool.or_eq_true, decide_eq_true_eq] at h
  rcases h with ((h | h) | h) | h <;> subst h <;> decide

theorem dropWhile_append_cons {p : Char → Bool} {x : List Char} {c : Char}
    {r : List Char} (w : List Char) (h : x.dropWhile p = c :: r) :
    (x ++ w).dropWhile p = c :: (r ++ w) := by
  induction x with
  | nil => simp at h
  | cons a x ih =>
    by_cases ha : p a
    · simp only [List.dropWhile_cons, ha, if_true] at h
      simpa [List.dropWhile_cons, ha] using ih h
    · simp only [List.dropWhile_cons, ha, if_false] at h
      cases h
      simp [List.dropWhile_cons, ha]

theorem dropWhile_append_nil {p : Char → Bool} {x : List Char} (w : List Char)
    (h : x.dropWhile p = []) : (x ++ w).dropWhile p = w.dropWhile p := by
  induction x with
  | nil => simp
  | cons a x ih =>
    by_cases ha : p a
    · simp only [List.dropWhile_cons, ha, if_true] at h
      simpa [List.dropWhile_cons, ha] using ih h
    · simp [List.dropWhile_cons, ha] at h

theorem dropWhile_head_false {p : Char → Bool} {x : List Char} {c : Char}
    {r : List Char} (h : x.dropWhile p = c :: r) : p c = false := by
  induction x with
  | nil => simp at h
  | cons a x ih =>
    by_cases ha : p a
    · simp only [List.dropWhile_cons, ha, if_true] at h
      exact ih h
    · simp only [List.dropWhile_cons, ha, if_false] at h
      cases h
      simpa using ha

theorem skipWs_append_cons {x : List Char} {c : Char} {r : List Char}
    (w : List Char) (h : skipWs x = c :: r) : skipWs (x ++ w) = c :: (r ++ w) :=
  dropWhile_append_cons w h

theorem skipWs_allWs {w : List Char} (h : ∀ c ∈ w, isWs c = true) :
    skipWs w = [] :=
  List.dropWhile_eq_nil_iff.mpr h

theorem allWs_of_skipWs_nil {w : List Char} (h : skipWs w = []) :
    ∀ c ∈ w, isWs c = true :=
  List.dropWhile_eq_nil_iff.mp h

theorem dropTrailingWs_cons_head {c : Char} (l : List Char)
    (h : isWs c = false) : ∃ t, dropTrailingWs (c :: l) = c :: t := by
  unfold dropTrailingWs
  cases h2 : (l.reverse).dropWhile isWs with
  | nil =>
    refine ⟨[], ?_⟩
    have : (c :: l).reverse = l.reverse ++ [c] := by simp
    rw [this, dropWhile_append_nil [c] h2]
    simp [List.dropWhile, h]
  | cons d r =>
    refine ⟨r.reverse ++ [d], ?_⟩
    have : (c :: l).reverse = l.reverse ++ [c] := by simp
    rw [this, dropWhile_append_cons [c] h2]
    simp

theorem pyStrip_shape (l : List Char) :
    pyStrip l = [] ∨ ∃ c t, pyStrip l = c :: t ∧ isWs c = false := by
  unfold pyStrip
  cases h : l.dropWhile isWs with
  | nil => left; simp [dropTrailingWs]
  | cons c t =>
    right
    have hc : isWs c = false := dropWhile_head_false h
    obtain ⟨t2, ht2⟩ := dropTrailingWs_cons_head t hc
    exact ⟨c, t2, ht2, hc⟩

theorem skipWs_pyStrip (l : List Char) : skipWs (pyStrip l) = pyStrip l := by
  rcases pyStrip_shape l with h | ⟨c, t, h, hc⟩
  · simp [h, skipWs]
  · simp [h, skipWs, List.dropWhile, hc]

theorem mem_takeWhile_ws {w : List Char} {c : Char} {p : Char → Bool}
    (h : c ∈ w.takeWhile p) : p c = true := by
  induction w with
  | nil => simp [List.takeWhile] at h
  | cons a l ih =>
    by_cases ha : p a
    · simp only [List.takeWhile_cons, ha, if_true, List.mem_cons] at h
      rcases h with h | h
      · subst h; exact ha
      · exact ih (by simpa [List.takeWhile] using h)
    · simp [List.takeWhile_cons, ha] at h

theorem pyStrip_decomp (l : List Char) :
    ∃ lead trail, l = lead ++ pyStrip l ++ trail ∧
      (∀ c ∈ lead, isWs c = true) ∧ (∀ c ∈ trail, isWs c = true) := by
  refine ⟨l.takeWhile isWs, ((l.dropWhile isWs).reverse.takeWhile isWs).reverse,
    ?_, ?_, ?_⟩
  · have h2 : pyStrip l ++ ((l.dropWhile isWs).reverse.takeWhile isWs).reverse
        = l.dropWhile isWs := by
      unfold pyStrip dropTrailingWs
      rw [← List.reverse_append, List.takeWhile_append_dropWhile,
        List.reverse_reverse]
    rw [List.append_assoc, h2, List.takeWhile_append_dropWhile]
  · intro c hc; exact mem_takeWhile_ws hc
  · intro c hc
    rw [List.mem_reverse] at hc
    exact mem_takeWhile_ws hc

theorem pyStrip_eq_self {l : List Char} {c d : Char} {m m2 : List Char}
    (hl : l = c :: m) (hl2 : l = m2 ++ [d])
    (h1 : isWs c = false) (h2 : isWs d = false) : pyStrip l = l := by
  unfold pyStrip dropTrailingWs
  have hdrop : l.dropWhile isWs = l := by
    rw [hl]; simp [List.dropWhile, h1]
  rw [hdrop]
  have hrev : l.reverse = d :: m2.reverse := by rw [hl2]; simp
  rw [hrev]
  simp [List.dropWhile, h2, ← hrev]

theorem splitChar_ne_nil (sep : Char) (l : List Char) : splitChar sep l ≠ [] := by
  induction l with
  | nil => simp [splitChar]
  | cons c rest ih =>
    by_cases hc : c = sep
    · simp [splitChar, hc]
    · simp only [splitChar, if_neg hc]
      cases h : splitChar sep rest with
      | nil => exact absurd h ih
      | cons a t => simp

theorem splitChar_not_mem {sep : Char} {l : List Char} (h : sep ∉ l) :
    splitChar sep l = [l] := by
  induction l with
  | nil => rfl
  | cons c rest ih =>
    simp only [List.mem_cons, not_or] at h
    obtain ⟨h1, h2⟩ := h
    have hc : ¬ c = sep := fun e => h1 e.symm
    simp [splitChar, hc, ih h2]

theorem splitChar_append_first {sep : Char} {A : List Char} (B : List Char)
    (h : sep ∉ A) : splitChar sep (A ++ sep :: B) = A :: splitChar sep B := by
  induction A with
  | nil => simp [splitChar]
  | cons c rest ih =>
    simp only [List.mem_cons, not_or] at h
    obtain ⟨h1, h2⟩ := h
    have hc : ¬ c = sep := fun e => h1 e.symm
    simp [splitChar, hc, ih h2]

theorem splitChar_append_last {sep : Char} {C : List Char} (J : List Char)
    (h : sep ∉ C) : splitChar sep (J ++ sep :: C) = splitChar sep J ++ [C] := by
  induction J with
  | nil => simp [splitChar, splitChar_not_mem h]
  | cons c rest ih =>
    by_cases hc : c = sep
    · subst hc
      simp [splitChar, ih]
    · cases hsr : splitChar sep rest with
      | nil => exact absurd hsr (splitChar_ne_nil sep rest)
      | cons a t =>
        rw [List.cons_append]
        simp only [splitChar, if_neg hc]
        rw [ih, hsr]
        simp

theorem joinChar_splitChar (sep : Char) (l : List Char) :
    joinChar sep (splitChar sep l) = l := by
  induction l with
  | nil => rfl
  | cons c rest ih =>
    by_cases hc : c = sep
    · subst hc
      cases hsr : splitChar c rest with
      | nil => exact absurd hsr (splitChar_ne_nil c rest)
      | cons a t =>
        simp only [splitChar, if_pos rfl, joinChar]
        rw [hsr]
        show c :: joinChar c (a :: t) = c :: rest
        rw [← hsr, ih]
    · cases hsr : splitChar sep rest with
      | nil => exact absurd hsr (splitChar_ne_nil sep rest)
      | cons a t =>
        simp only [splitChar, if_neg hc, hsr]
        cases t with
        | nil =>
          simp only [joinChar]
          have h2 := ih
          rw [hsr] at h2
          simp only [joinChar] at h2
          rw [h2]
        | cons b t2 =>
          simp only [joinChar]
          have h2 := ih
          rw [hsr] at h2
          simp only [joinChar] at h2
          rw [List.cons_append, h2]

theorem ltChars_trichotomy {x y : List Char} (h1 : ltChars x y = false)
    (h2 : ltChars y x = false) : x = y := by
  induction x generalizing y with
  | nil =>
    cases y with
    | nil => rfl
    | cons b bs => simp [ltChars] at h1
  | cons a as ih =>
    cases y with
    | nil => simp [ltChars] at h2
    | cons b bs =>
      simp only [ltChars] at h1 h2
      by_cases hab : a.toNat < b.toNat
      · simp [hab] at h1
      · by_cases hba : b.toNat < a.toNat
        · simp [hab, hba] at h2
        · simp only [if_neg hab, if_neg hba] at h1 h2
          have : a = b := charToNat_inj (by omega)
          rw [this, ih h1 h2]

theorem ltChars_trans {x y z : List Char} (h1 : ltChars x y = true)
    (h2 : ltChars y z = true) : ltChars x z = true := by
  induction x generalizing y z with
  | nil =>
    cases y with
    | nil => simp [ltChars] at h1
    | cons b bs =>
      cases z with
      | nil => simp [ltChars] at h2
      | cons c cs => simp [ltChars]
  | cons a as ih =>
    cases y with
    | nil => simp [ltChars] at h1
    | cons b bs =>
      cases z with
      | nil => simp [ltChars] at h2
      | cons c cs =>
        simp only [ltChars] at h1 h2 ⊢
        by_cases hab : a.toNat < b.toNat
        · by_cases hbc : b.toNat < c.toNat
          · have : a.toNat < c.toNat := by omega
            simp [this]
          · simp only [if_neg hbc] at h2
            by_cases hcb : c.toNat < b.toNat
            · simp [hcb] at h2
            · have : a.toNat < c.toNat := by omega
              simp [this]
        · simp only [if_neg hab] at h1
          by_cases hba : b.toNat < a.toNat
          · simp [hba] at h1
          · simp only [if_neg hba] at h1
            by_cases hbc : b.toNat < c.toNat
            · have : a.toNat < c.toNat := by omega
              simp [this]
            · simp only [if_neg hbc] at h2
              by_cases hcb : c.toNat < b.toNat
              · simp [hcb] at h2
              · simp only [if_neg hcb] at h2
                have hac : ¬ a.toNat < c.toNat := by omega
                have hca : ¬ c.toNat < a.toNat := by omega
                simp only [if_neg hac, if_neg hca]
                exact ih h1 h2

theorem leChars_eq_true_iff {x y : List Char} :
    leChars x y = true ↔ ltChars y x = false := by
  simp [leChars]

instance : IsTrans EventRow newestFirst := by
  constructor
  intro a b c hab hbc
  rcases hab with h1 | ⟨e1, i1⟩ <;> rcases hbc with h2 | ⟨e2, i2⟩
  · exact Or.inl (ltChars_trans h2 h1)
  · exact Or.inl (by rw [e2]; exact h1)
  · exact Or.inl (by rw [← e1]; exact h2)
  · exact Or.inr ⟨e2.trans e1, le_trans i2 i1⟩

instance : IsTotal EventRow newestFirst := by
  constructor
  intro a b
  by_cases h1 : ltChars b.timestamp a.timestamp = true
  · exact Or.inl (Or.inl h1)
  · by_cases h2 : ltChars a.timestamp b.timestamp = true
    · exact Or.inr (Or.inl h2)
    · rw [Bool.not_eq_true] at h1 h2
      have e : b.timestamp = a.timestamp := ltChars_trichotomy h1 h2
      rcases Nat.le_total b.id a.id with hle | hle
      · exact Or.inl (Or.inr ⟨e, hle⟩)
      · exact Or.inr (Or.inr ⟨e.symm, hle⟩)

/-! ## Helper lemmas for the daily-metrics upsert -/

theorem buildRow_day {α : Type} (m : Option (List SleepRow)) (s n : List Char)
    (r : SummaryRow α) : (buildRow m s n r).day = r.day := rfl

theorem rowsForDay_map_replace {α : Type} (tbl : List (GarminDailyRow α))
    (r : GarminDailyRow α) :
    rowsForDay (tbl.map (fun q => if q.day = r.day then r else q)) r.day
      = List.replicate (rowsForDay tbl r.day).length r := by
  induction tbl with
  | nil => rfl
  | cons q tbl ih =>
    unfold rowsForDay at ih ⊢
    by_cases hq : q.day = r.day
    · simp only [List.map_cons, if_pos hq]
      rw [List.filter_cons_of_pos (by simp), List.filter_cons_of_pos (by simp [hq]),
        ih]
      simp [List.replicate_succ]
    · simp only [List.map_cons, if_neg hq]
      rw [List.filter_cons_of_neg (by simp [hq]), List.filter_cons_of_neg (by simp [hq]),
        ih]

theorem rowsForDay_map_replace_other {α : Type} (tbl : List (GarminDailyRow α))
    (r : GarminDailyRow α) (d : List Char) (hd : d ≠ r.day) :
    rowsForDay (tbl.map (fun q => if q.day = r.day then r else q)) d
      = rowsForDay tbl d := by
  induction tbl with
  | nil => rfl
  | cons q tbl ih =>
    unfold rowsForDay at ih ⊢
    by_cases hq : q.day = r.day
    · have h1 : ¬ r.day = d := fun e => hd e.symm
      have h2 : ¬ q.day = d := fun e => h1 (hq.symm.trans e)
      simp only [List.map_cons, if_pos hq]
      rw [List.filter_cons_of_neg (by simp [h1]),
        List.filter_cons_of_neg (by simp [h2]), ih]
    · simp only [List.map_cons, if_neg hq]
      by_cases hqd : q.day = d
      · rw [List.filter_cons_of_pos (by simp [hqd]),
          List.filter_cons_of_pos (by simp [hqd]), ih]
      · rw [List.filter_cons_of_neg (by simp [hqd]),
          List.filter_cons_of_neg (by simp [hqd]), ih]

theorem upsert_same {α : Type} (tbl : List (GarminDailyRow α))
    (r : GarminDailyRow α) (h : (rowsForDay tbl r.day).length ≤ 1) :
    rowsForDay (upsertDailyMetrics tbl r) r.day = [r] := by
  unfold upsertDailyMetrics
  by_cases hany : tbl.any (fun q => decide (q.day = r.day)) = true
  · rw [if_pos hany, rowsForDay_map_replace]
    have hge : 1 ≤ (rowsForDay tbl r.day).length := by
      rcases List.any_eq_true.mp hany with ⟨q, hq, hdq⟩
      have hm : q ∈ rowsForDay tbl r.day := List.mem_filter.mpr ⟨hq, hdq⟩
      exact List.length_pos.mpr (List.ne_nil_of_mem hm)
    have he : (rowsForDay tbl r.day).length = 1 := le_antisymm h hge
    rw [he]
    rfl
  · rw [if_neg hany]
    have hnil : rowsForDay tbl r.day = [] := by
      rw [Bool.not_eq_true, List.any_eq_false] at hany
      unfold rowsForDay
      exact List.filter_eq_nil_iff.mpr fun q hq =>
        by simpa using hany q hq
    unfold rowsForDay at hnil ⊢
    rw [List.filter_append, hnil]
    simp

theorem upsert_other {α : Type} (tbl : List (GarminDailyRow α))
    (r : GarminDailyRow α) (d : List Char) (hd : d ≠ r.day) :
    rowsForDay (upsertDailyMetrics tbl r) d = rowsForDay tbl d := by
  unfold upsertDailyMetrics
  by_cases hany : tbl.any (fun q => decide (q.day = r.day)) = true
  · rw [if_pos hany]
    exact rowsForDay_map_replace_other tbl r d hd
  · rw [if_neg hany]
    unfold rowsForDay
    rw [List.filter_append]
    have : ¬ r.day = d := fun e => hd e.symm
    simp [this]

theorem upsert_bound {α : Type} (tbl : List (GarminDailyRow α))
    (r : GarminDailyRow α) (h : ∀ d, (rowsForDay tbl d).length ≤ 1) :
    ∀ d, (rowsForDay (upsertDailyMetrics tbl r) d).length ≤ 1 := by
  intro d
  by_cases hd : d = r.day
  · subst hd
    rw [upsert_same tbl r (h _)]
    simp
  · rw [upsert_other tbl r d hd]
    exact h d

theorem fold_untouched {α : Type} (mainDb : Option (List SleepRow))
    (since now : List Char) (rows : List (SummaryRow α))
    (tbl : List (GarminDailyRow α)) (d : List Char)
    (h : ∀ r ∈ rows, r.day ≠ d) :
    rowsForDay
      (rows.foldl (fun t r => upsertDailyMetrics t (buildRow mainDb since now r)) tbl) d
    = rowsForDay tbl d := by
  induction rows generalizing tbl with
  | nil => rfl
  | cons a rows ih =>
    simp only [List.foldl_cons]
    rw [ih _ fun r hr => h r (List.mem_cons_of_mem a hr)]
    exact upsert_other tbl _ d fun e => h a (List.mem_cons_self a rows) e.symm

theorem fold_target {α : Type} (mainDb : Option (List SleepRow))
    (since now : List Char) (rows : List (SummaryRow α))
    (tbl : List (GarminDailyRow α))
    (hbound : ∀ d, (rowsForDay tbl d).length ≤ 1)
    (hnodup : (rows.map (fun r => r.day)).Nodup) :
    ∀ r ∈ rows,
      rowsForDay
        (rows.foldl (fun t r => upsertDailyMetrics t (buildRow mainDb since now r)) tbl)
        r.day
      = [buildRow mainDb since now r] := by
  induction rows generalizing tbl with
  | nil => simp
  | cons a rows ih =>
    intro r hr
    simp only [List.map_cons, List.nodup_cons] at hnodup
    simp only [List.foldl_cons]
    rcases List.mem_cons.mp hr with rfl | hr2
    · have hnot : ∀ q ∈ rows, q.day ≠ r.day := by
        intro q hq e
        exact hnodup.1 (e ▸ List.mem_map_of_mem _ hq)
      rw [fold_untouched mainDb since now rows _ r.day hnot]
      exact upsert_same tbl (buildRow mainDb since now r) (hbound _)
    · exact ih _ (upsert_bound tbl _ hbound) hnodup.2 r hr2

theorem sync_none {α : Type} (mainDb : Option (List SleepRow))
    (since now : List Char) (health : List (GarminDailyRow α)) :
    sync (α := α) none mainDb since now health
      = (Except.error SyncError.sourceUnavailable, health) := rfl

theorem sync_some_fst {α : Type} (srows : List (SummaryRow α))
    (mainDb : Option (List SleepRow)) (since now : List Char)
    (health : List (GarminDailyRow α)) :
    (sync (some srows) mainDb since now health).fst
      = Except.ok ((srows.filter (fun r => leChars since r.day)).length) := by
  have hlen := (List.perm_insertionSort dayLe
    (srows.filter (fun r => leChars since r.day))).length_eq
  simp only [sync]
  by_cases h : (List.insertionSort dayLe
      (srows.filter (fun r => leChars since r.day))).isEmpty
  · rw [if_pos h]
    rw [List.isEmpty_iff] at h
    rw [h] at hlen
    simp [← hlen]
  · rw [if_neg h]
    rw [hlen]

theorem sync_some_rows {α : Type} (srows : List (SummaryRow α))
    (mainDb : Option (List SleepRow)) (since now : List Char)
    (health : List (GarminDailyRow α))
    (hbound : ∀ d, (rowsForDay health d).length ≤ 1)
    (hnodup : ((srows.filter (fun r => leChars since r.day)).map
      (fun r => r.day)).Nodup) :
    ∀ r ∈ srows.filter (fun r => leChars since r.day),
      rowsForDay (sync (some srows) mainDb since now health).snd r.day
        = [buildRow mainDb since now r] := by
  intro r hr
  have hperm := List.perm_insertionSort dayLe
    (srows.filter (fun r => leChars since r.day))
  simp only [sync]
  by_cases h : (List.insertionSort dayLe
      (srows.filter (fun r => leChars since r.day))).isEmpty
  · rw [List.isEmpty_iff] at h
    rw [h] at hperm
    rw [hperm.symm.eq_nil] at hr
    cases hr
  · rw [if_neg h]
    have hnodup2 : ((List.insertionSort dayLe
        (srows.filter (fun r => leChars since r.day))).map
        (fun r => r.day)).Nodup :=
      ((hperm.map _).nodup_iff).mpr hnodup
    have hmem : r ∈ List.insertionSort dayLe
        (srows.filter (fun r => leChars since r.day)) :=
      hperm.mem_iff.mpr hr
    exact fold_target mainDb since now _ health hbound hnodup2 r hmem

/-! ## Decoder lemmas -/

theorem scanStr_append_aux :
    ∀ (N : Nat) (x : List Char), x.length ≤ N → ∀ (s r w : List Char),
      scanStr x = some (s, r) → scanStr (x ++ w) = some (s, r ++ w) := by
  intro N
  induction N with
  | zero =>
    intro x hx s r w h
    have : x = [] := List.length_eq_zero.mp (Nat.le_zero.mp hx)
    subst this
    simp [scanStr] at h
  | succ N ih =>
    intro x hx s r w h
    cases x with
    | nil => simp [scanStr] at h
    | cons c rest =>
      rw [List.cons_append]
      rw [scanStr.eq_def] at h
      rw [scanStr.eq_def]
      dsimp only at h ⊢
      by_cases h1 : c = '"'
      · rw [if_pos h1] at h ⊢
        cases h
        rfl
      · rw [if_neg h1] at h ⊢
        by_cases h2 : c = '\\'
        · rw [if_pos h2] at h ⊢
          cases rest with
          | nil => simp at h
          | cons e rest2 =>
            rw [List.cons_append]
            dsimp only at h ⊢
            by_cases he : e = 'u'
            · rw [if_pos he] at h ⊢
              match rest2, h with
              | f1 :: f2 :: f3 :: f4 :: rest3, h => ?_
              rw [List.cons_append, List.cons_append, List.cons_append,
                List.cons_append]
              dsimp only at h ⊢
              cases hh1 : hexVal f1 with
              | none => simp [hh1] at h
              | some a =>
                cases hh2 : hexVal f2 with
                | none => simp [hh1, hh2] at h
                | some b =>
                  cases hh3 : hexVal f3 with
                  | none => simp [hh1, hh2, hh3] at h
                  | some hc =>
                    cases hh4 : hexVal f4 with
                    | none => simp [hh1, hh2, hh3, hh4] at h
                    | some d =>
                      cases hsc : scanStr rest3 with
                      | none => simp [hh1, hh2, hh3, hh4, hsc] at h
                      | some p =>
                        obtain ⟨s0, r0⟩ := p
                        simp only [hh1, hh2, hh3, hh4, hsc, Option.some.injEq,
                          Prod.mk.injEq] at h
                        obtain ⟨hs, hr⟩ := h
                        subst hs
                        subst hr
                        have hlen : rest3.length ≤ N := by
                          simp at hx
                          omega
                        simp only [hh1, hh2, hh3, hh4]
                        rw [ih rest3 hlen s0 r0 w hsc]
            · rw [if_neg he] at h ⊢
              cases hec : escChar e with
              | none => simp [hec] at h
              | some ec =>
                cases hsc : scanStr rest2 with
                | none => simp [hec, hsc] at h
                | some p =>
                  obtain ⟨s0, r0⟩ := p
                  simp only [hec, hsc, Option.some.injEq, Prod.mk.injEq] at h
                  obtain ⟨hs, hr⟩ := h
                  subst hs
                  subst hr
                  have hlen : rest2.length ≤ N := by
                    simp at hx
                    omega
                  simp only [hec]
                  rw [ih rest2 hlen s0 r0 w hsc]
        · rw [if_neg h2] at h ⊢
          by_cases h3 : c.toNat < 32
          · rw [if_pos h3] at h
            simp at h
          · rw [if_neg h3] at h ⊢
            cases hsc : scanStr rest with
            | none => simp [hsc] at h
            | some p =>
              obtain ⟨s0, r0⟩ := p
              simp only [hsc, Option.some.injEq, Prod.mk.injEq] at h
              obtain ⟨hs, hr⟩ := h
              subst hs
              subst hr
              have hlen : rest.length ≤ N := by
                simp at hx
                omega
              rw [ih rest hlen s0 r0 w hsc]

theorem scanStr_append {x s r : List Char} (w : List Char)
    (h : scanStr x = some (s, r)) : scanStr (x ++ w) = some (s, r ++ w) :=
  scanStr_append_aux x.length x le_rfl s r w h

theorem parseCore_mono :
    ∀ (n : Nat) (m : PMode) (l : List Char) (res : Json × List Char),
      parseCore n m l = some res → parseCore (n + 1) m l = some res := by
  intro n
  induction n with
  | zero => intro m l res h; simp [parseCore] at h
  | succ n ih =>
    intro m l res h
    rw [parseCore.eq_def] at h
    rw [parseCore.eq_def]
    cases m with
    | value =>
      dsimp only at h ⊢
      cases hsk : skipWs l with
      | nil => rw [hsk] at h; simp at h
      | cons c rest =>
        rw [hsk] at h
        try dsimp only at h
        try dsimp only
        by_cases h1 : c = '"'
        · rw [if_pos h1] at h ⊢; exact h
        · rw [if_neg h1] at h ⊢
          by_cases h2 : c = '['
          · rw [if_pos h2] at h ⊢
            cases hsk2 : skipWs rest with
            | nil => rw [hsk2] at h; simp at h
            | cons c2 r2 =>
              rw [hsk2] at h
              try dsimp only at h
              try dsimp only
              by_cases hc2 : c2 = ']'
              · rw [if_pos hc2] at h ⊢; exact h
              · rw [if_neg hc2] at h ⊢; exact ih PMode.items rest res h
          · rw [if_neg h2] at h ⊢
            by_cases h3 : c = openBrace
            · rw [if_pos h3] at h ⊢
              cases hsk2 : skipWs rest with
              | nil => rw [hsk2] at h; simp at h
              | cons c2 r2 =>
                rw [hsk2] at h
                try dsimp only at h
                try dsimp only
                by_cases hc2 : c2 = closeBrace
                · rw [if_pos hc2] at h ⊢; exact h
                · rw [if_neg hc2] at h ⊢; exact ih PMode.members rest res h
            · rw [if_neg h3] at h ⊢
              by_cases h4 : c = 't'
              · rw [if_pos h4] at h ⊢; exact h
              · rw [if_neg h4] at h ⊢
                by_cases h5 : c = 'f'
                · rw [if_pos h5] at h ⊢; exact h
                · rw [if_neg h5] at h ⊢
                  by_cases h6 : c = 'n'
                  · rw [if_pos h6] at h ⊢; exact h
                  · rw [if_neg h6] at h ⊢
                    by_cases h7 : c = '-'
                    · rw [if_pos h7] at h ⊢; exact h
                    · rw [if_neg h7] at h ⊢
                      by_cases h8 : isDigit c = true
                      · rw [if_pos h8] at h ⊢; exact h
                      · rw [if_neg h8] at h ⊢; exact h
    | items =>
      dsimp only at h ⊢
      cases hpv : parseCore n PMode.value l with
      | none => rw [hpv] at h; simp at h
      | some p =>
        obtain ⟨v, r⟩ := p
        rw [hpv] at h
        rw [ih PMode.value l (v, r) hpv]
        try dsimp only at h
        try dsimp only
        cases hsk : skipWs r with
        | nil => rw [hsk] at h; simp at h
        | cons c2 r2 =>
          rw [hsk] at h
          try dsimp only at h
          try dsimp only
          by_cases hc2 : c2 = ','
          · rw [if_pos hc2] at h ⊢
            cases hpi : parseCore n PMode.items r2 with
            | none => rw [hpi] at h; simp at h
            | some q =>
              obtain ⟨vj, r3⟩ := q
              rw [hpi] at h
              rw [ih PMode.items r2 (vj, r3) hpi]
              exact h
          · rw [if_neg hc2] at h ⊢
            exact h
    | members =>
      dsimp only at h ⊢
      cases hsk : skipWs l with
      | nil => rw [hsk] at h; simp at h
      | cons c rest =>
        rw [hsk] at h
        try dsimp only at h
        try dsimp only
        by_cases h1 : c = '"'
        · rw [if_pos h1] at h ⊢
          cases hscan : scanStr rest with
          | none => rw [hscan] at h; simp at h
          | some p =>
            obtain ⟨k, r⟩ := p
            rw [hscan] at h
            try dsimp only at h
            try dsimp only
            cases hsk2 : skipWs r with
            | nil => rw [hsk2] at h; simp at h
            | cons c2 r2 =>
              rw [hsk2] at h
              try dsimp only at h
              try dsimp only
              by_cases hc2 : c2 = ':'
              · rw [if_pos hc2] at h ⊢
                cases hpv : parseCore n PMode.value r2 with
                | none => rw [hpv] at h; simp at h
                | some q =>
                  obtain ⟨v, r3⟩ := q
                  rw [hpv] at h
                  rw [ih PMode.value r2 (v, r3) hpv]
                  try dsimp only at h
                  try dsimp only
                  cases hsk3 : skipWs r3 with
                  | nil => rw [hsk3] at h; simp at h
                  | cons c3 r4 =>
                    rw [hsk3] at h
                    try dsimp only at h
                    try dsimp only
                    by_cases hc3 : c3 = ','
                    · rw [if_pos hc3] at h ⊢
                      cases hpm : parseCore n PMode.members r4 with
                      | none => rw [hpm] at h; simp at h
                      | some q2 =>
                        rw [hpm] at h
                        rw [ih PMode.members r4 q2 hpm]
                        exact h
                    · rw [if_neg hc3] at h ⊢
                      exact h
              · rw [if_neg hc2] at h ⊢
                exact h
        · rw [if_neg h1] at h ⊢
          exact h

theorem parseCore_mono_le {n n2 : Nat} {m : PMode} {l : List Char}
    {res : Json × List Char} (hle : n ≤ n2) (h : parseCore n m l = some res) :
    parseCore n2 m l = some res := by
  induction n2 with
  | zero =>
    have : n = 0 := Nat.le_zero.mp hle
    subst this
    exact h
  | succ n2 ih =>
    rcases Nat.lt_or_ge n (n2 + 1) with hlt | hge
    · exact parseCore_mono n2 m l res (ih (Nat.lt_succ_iff.mp hlt))
    · have : n = n2 + 1 := le_antisymm hle hge
      subst this
      exact h

theorem takeWhile_append_of_drop_nil {p : Char → Bool} {x : List Char}
    (w : List Char) (h : x.dropWhile p = []) :
    (x ++ w).takeWhile p = x ++ w.takeWhile p := by
  induction x with
  | nil => simp
  | cons a x ih =>
    by_cases ha : p a
    · simp only [List.dropWhile_cons, ha, if_true] at h
      simp [List.takeWhile_cons, ha, ih h]
    · simp [List.dropWhile_cons, ha] at h

theorem takeWhile_append_of_drop_cons {p : Char → Bool} {x : List Char}
    {c : Char} {r : List Char} (w : List Char) (h : x.dropWhile p = c :: r) :
    (x ++ w).takeWhile p = x.takeWhile p := by
  induction x with
  | nil => simp at h
  | cons a x ih =>
    by_cases ha : p a
    · simp only [List.dropWhile_cons, ha, if_true] at h
      simp [List.takeWhile_cons, ha, ih h]
    · simp only [List.dropWhile_cons, ha, if_false] at h
      cases h
      simp [List.takeWhile_cons, ha]

theorem natDigits_ws {x : List Char} {k : Nat} {r w : List Char}
    (hw : ∀ c ∈ w, isWs c = true) (h : natDigits x = some (k, r)) :
    natDigits (x ++ w) = some (k, r ++ w) := by
  unfold natDigits at h ⊢
  have hwt : w.takeWhile isDigit = [] := by
    cases w with
    | nil => rfl
    | cons cw w2 =>
      have : isDigit cw = false :=
        isWs_not_digit (hw cw (List.mem_cons_self cw w2))
      simp [List.takeWhile_cons, this]
  have hwd : w.dropWhile isDigit = w := by
    cases w with
    | nil => rfl
    | cons cw w2 =>
      have : isDigit cw = false :=
        isWs_not_digit (hw cw (List.mem_cons_self cw w2))
      simp [List.dropWhile_cons, this]
  cases hdrop : x.dropWhile isDigit with
  | nil =>
    have htake : x.takeWhile isDigit = x := by
      conv_rhs => rw [← List.takeWhile_append_dropWhile (p := isDigit) (l := x)]
      rw [hdrop, List.append_nil]
    rw [htake] at h
    rw [takeWhile_append_of_drop_nil w hdrop, hwt, List.append_nil,
      dropWhile_append_nil w hdrop, hwd]
    by_cases hx : x.isEmpty
    · rw [if_pos hx] at h
      cases h
    · rw [if_neg hx] at h ⊢
      simp only [Option.some.injEq, Prod.mk.injEq] at h
      obtain ⟨hk, hr⟩ := h
      subst hk
      rw [← hr, hdrop]
      simp
  | cons d rest =>
    rw [takeWhile_append_of_drop_cons w hdrop,
      dropWhile_append_cons w hdrop]
    rw [hdrop] at h
    by_cases hx : (x.takeWhile isDigit).isEmpty
    · rw [if_pos hx] at h
      cases h
    · rw [if_neg hx] at h ⊢
      simp only [Option.some.injEq, Prod.mk.injEq] at h
      obtain ⟨hk, hr⟩ := h
      subst hk
      rw [← hr]
      simp

theorem parseCore_ws_ext :
    ∀ (n : Nat) (m : PMode) (x : List Char) (v : Json) (r w : List Char),
      (∀ c ∈ w, isWs c = true) → parseCore n m x = some (v, r) →
      parseCore n m (x ++ w) = some (v, r ++ w) := by
  intro n
  induction n with
  | zero => intro m x v r w hw h; simp [parseCore] at h
  | succ n ih =>
    intro m x v r w hw h
    rw [parseCore.eq_def] at h
    rw [parseCore.eq_def]
    cases m with
    | value =>
      dsimp only at h ⊢
      cases hsk : skipWs x with
      | nil => rw [hsk] at h; simp at h
      | cons c rest =>
        rw [hsk] at h
        rw [skipWs_append_cons w hsk]
        try dsimp only at h
        try dsimp only
        by_cases h1 : c = '"'
        · rw [if_pos h1] at h ⊢
          cases hss : scanStr rest with
          | none => rw [hss] at h; simp at h
          | some p =>
            obtain ⟨s0, r0⟩ := p
            rw [hss] at h
            rw [scanStr_append w hss]
            simp only [Option.some.injEq, Prod.mk.injEq] at h
            obtain ⟨hv, hr⟩ := h
            subst hv
            subst hr
            rfl
        · rw [if_neg h1] at h ⊢
          by_cases h2 : c = '['
          · rw [if_pos h2] at h ⊢
            cases hsk2 : skipWs rest with
            | nil => rw [hsk2] at h; simp at h
            | cons c2 r2 =>
              rw [hsk2] at h
              rw [skipWs_append_cons w hsk2]
              try dsimp only at h
              try dsimp only
              by_cases hc2 : c2 = ']'
              · rw [if_pos hc2] at h ⊢
                simp only [Option.some.injEq, Prod.mk.injEq] at h
                obtain ⟨hv, hr⟩ := h
                subst hv
                subst hr
                rfl
              · rw [if_neg hc2] at h ⊢
                exact ih PMode.items rest v r w hw h
          · rw [if_neg h2] at h ⊢
            by_cases h3 : c = openBrace
            · rw [if_pos h3] at h ⊢
              cases hsk2 : skipWs rest with
              | nil => rw [hsk2] at h; simp at h
              | cons c2 r2 =>
                rw [hsk2] at h
                rw [skipWs_append_cons w hsk2]
                try dsimp only at h
                try dsimp only
                by_cases hc2 : c2 = closeBrace
                · rw [if_pos hc2] at h ⊢
                  simp only [Option.some.injEq, Prod.mk.injEq] at h
                  obtain ⟨hv, hr⟩ := h
                  subst hv
                  subst hr
                  rfl
                · rw [if_neg hc2] at h ⊢
                  exact ih PMode.members rest v r w hw h
            · rw [if_neg h3] at h ⊢
              by_cases h4 : c = 't'
              · rw [if_pos h4] at h ⊢
                rcases rest with _ | ⟨c1, _ | ⟨c2, _ | ⟨c3, r2⟩⟩⟩
                · simp at h
                · simp at h
                · simp at h
                · rw [List.cons_append, List.cons_append, List.cons_append]
                  try dsimp only at h
                  try dsimp only
                  by_cases hl1 : c1 = 'r'
                  · rw [if_pos hl1] at h ⊢
                    by_cases hl2 : c2 = 'u'
                    · rw [if_pos hl2] at h ⊢
                      by_cases hl3 : c3 = 'e'
                      · rw [if_pos hl3] at h ⊢
                        simp only [Option.some.injEq, Prod.mk.injEq] at h
                        obtain ⟨hv, hr⟩ := h
                        subst hv
                        subst hr
                        rfl
                      · rw [if_neg hl3] at h; simp at h
                    · rw [if_neg hl2] at h; simp at h
                  · rw [if_neg hl1] at h; simp at h
              · rw [if_neg h4] at h ⊢
                by_cases h5 : c = 'f'
                · rw [if_pos h5] at h ⊢
                  rcases rest with _ | ⟨c1, _ | ⟨c2, _ | ⟨c3, _ | ⟨c4, r2⟩⟩⟩⟩
                  · simp at h
                  · simp at h
                  · simp at h
                  · simp at h
                  · rw [List.cons_append, List.cons_append, List.cons_append,
                      List.cons_append]
                    try dsimp only at h
                    try dsimp only
                    by_cases hl1 : c1 = 'a'
                    · rw [if_pos hl1] at h ⊢
                      by_cases hl2 : c2 = 'l'
                      · rw [if_pos hl2] at h ⊢
                        by_cases hl3 : c3 = 's'
                        · rw [if_pos hl3] at h ⊢
                          by_cases hl4 : c4 = 'e'
                          · rw [if_pos hl4] at h ⊢
                            simp only [Option.some.injEq, Prod.mk.injEq] at h
                            obtain ⟨hv, hr⟩ := h
                            subst hv
                            subst hr
                            rfl
                          · rw [if_neg hl4] at h; simp at h
                        · rw [if_neg hl3] at h; simp at h
                      · rw [if_neg hl2] at h; simp at h
                    · rw [if_neg hl1] at h; simp at h
                · rw [if_neg h5] at h ⊢
                  by_cases h6 : c = 'n'
                  · rw [if_pos h6] at h ⊢
                    rcases rest with _ | ⟨c1, _ | ⟨c2, _ | ⟨c3, r2⟩⟩⟩
                    · simp at h
                    · simp at h
                    · simp at h
                    · rw [List.cons_append, List.cons_append, List.cons_append]
                      try dsimp only at h
                      try dsimp only
                      by_cases hl1 : c1 = 'u'
                      · rw [if_pos hl1] at h ⊢
                        by_cases hl2 : c2 = 'l'
                        · rw [if_pos hl2] at h ⊢
                          by_cases hl3 : c3 = 'l'
                          · rw [if_pos hl3] at h ⊢
                            simp only [Option.some.injEq, Prod.mk.injEq] at h
                            obtain ⟨hv, hr⟩ := h
                            subst hv
                            subst hr
                            rfl
                          · rw [if_neg hl3] at h; simp at h
                        · rw [if_neg hl2] at h; simp at h
                      · rw [if_neg hl1] at h; simp at h
                  · rw [if_neg h6] at h ⊢
                    by_cases h7 : c = '-'
                    · rw [if_pos h7] at h ⊢
                      cases hnd : natDigits rest with
                      | none => rw [hnd] at h; simp at h
                      | some p =>
                        obtain ⟨k0, r2⟩ := p
                        rw [hnd] at h
                        rw [natDigits_ws hw hnd]
                        simp only [Option.some.injEq, Prod.mk.injEq] at h
                        obtain ⟨hv, hr⟩ := h
                        subst hv
                        subst hr
                        rfl
                    · rw [if_neg h7] at h ⊢
                      by_cases h8 : isDigit c = true
                      · rw [if_pos h8] at h ⊢
                        rw [← List.cons_append]
                        cases hnd : natDigits (c :: rest) with
                        | none => rw [hnd] at h; simp at h
                        | some p =>
                          obtain ⟨k0, r2⟩ := p
                          rw [hnd] at h
                          rw [natDigits_ws hw hnd]
                          simp only [Option.some.injEq, Prod.mk.injEq] at h
                          obtain ⟨hv, hr⟩ := h
                          subst hv
                          subst hr
                          rfl
                      · rw [if_neg h8] at h
                        simp at h
    | items =>
      dsimp only at h ⊢
      cases hpv : parseCore n PMode.value x with
      | none => rw [hpv] at h; simp at h
      | some p =>
        obtain ⟨v0, r0⟩ := p
        rw [hpv] at h
        rw [ih PMode.value x v0 r0 w hw hpv]
        try dsimp only at h
        try dsimp only
        cases hsk : skipWs r0 with
        | nil => rw [hsk] at h; simp at h
        | cons c2 r2 =>
          rw [hsk] at h
          rw [skipWs_append_cons w hsk]
          try dsimp only at h
          try dsimp only
          by_cases hc2 : c2 = ','
          · rw [if_pos hc2] at h ⊢
            cases hpi : parseCore n PMode.items r2 with
            | none => rw [hpi] at h; simp at h
            | some q =>
              obtain ⟨vj, r3⟩ := q
              rw [hpi] at h
              rw [ih PMode.items r2 vj r3 w hw hpi]
              cases vj with
              | arr xs =>
                try dsimp only at h
                try dsimp only
                simp only [Option.some.injEq, Prod.mk.injEq] at h
                obtain ⟨hv, hr⟩ := h
                subst hv
                subst hr
                rfl
              | null => simp at h
              | bool b => simp at h
              | num i => simp at h
              | str s => simp at h
              | obj kvs => simp at h
          · rw [if_neg hc2] at h ⊢
            by_cases hc2b : c2 = ']'
            · rw [if_pos hc2b] at h ⊢
              simp only [Option.some.injEq, Prod.mk.injEq] at h
              obtain ⟨hv, hr⟩ := h
              subst hv
              subst hr
              rfl
            · rw [if_neg hc2b] at h
              simp at h
    | members =>
      dsimp only at h ⊢
      cases hsk : skipWs x with
      | nil => rw [hsk] at h; simp at h
      | cons c rest =>
        rw [hsk] at h
        rw [skipWs_append_cons w hsk]
        try dsimp only at h
        try dsimp only
        by_cases h1 : c = '"'
        · rw [if_pos h1] at h ⊢
          cases hscan : scanStr rest with
          | none => rw [hscan] at h; simp at h
          | some p =>
            obtain ⟨k, r0⟩ := p
            rw [hscan] at h
            rw [scanStr_append w hscan]
            try dsimp only at h
            try dsimp only
            cases hsk2 : skipWs r0 with
            | nil => rw [hsk2] at h; simp at h
            | cons c2 r2 =>
              rw [hsk2] at h
              rw [skipWs_append_cons w hsk2]
              try dsimp only at h
              try dsimp only
              by_cases hc2 : c2 = ':'
              · rw [if_pos hc2] at h ⊢
                cases hpv : parseCore n PMode.value r2 with
                | none => rw [hpv] at h; simp at h
                | some q =>
                  obtain ⟨v0, r3⟩ := q
                  rw [hpv] at h
                  rw [ih PMode.value r2 v0 r3 w hw hpv]
                  try dsimp only at h
                  try dsimp only
                  cases hsk3 : skipWs r3 with
                  | nil => rw [hsk3] at h; simp at h
                  | cons c3 r4 =>
                    rw [hsk3] at h
                    rw [skipWs_append_cons w hsk3]
                    try dsimp only at h
                    try dsimp only
                    by_cases hc3 : c3 = ','
                    · rw [if_pos hc3] at h ⊢
                      cases hpm : parseCore n PMode.members r4 with
                      | none => rw [hpm] at h; simp at h
                      | some q2 =>
                        obtain ⟨vm, r5⟩ := q2
                        rw [hpm] at h
                        rw [ih PMode.members r4 vm r5 w hw hpm]
                        cases vm with
                        | obj kvs =>
                          try dsimp only at h
                          try dsimp only
                          simp only [Option.some.injEq, Prod.mk.injEq] at h
                          obtain ⟨hv, hr⟩ := h
                          subst hv
                          subst hr
                          rfl
                        | null => simp at h
                        | bool b => simp at h
                        | num i => simp at h
                        | str s => simp at h
                        | arr xs => simp at h
                    · rw [if_neg hc3] at h ⊢
                      by_cases hc3b : c3 = closeBrace
                      · rw [if_pos hc3b] at h ⊢
                        simp only [Option.some.injEq, Prod.mk.injEq] at h
                        obtain ⟨hv, hr⟩ := h
                        subst hv
                        subst hr
                        rfl
                      · rw [if_neg hc3b] at h
                        simp at h
              · rw [if_neg hc2] at h
                simp at h
        · rw [if_neg h1] at h
          simp at h

theorem parseCore_value_head {n : Nat} {l : List Char} {res : Json × List Char}
    {c : Char} {rest : List Char} (h : parseCore n PMode.value l = some res)
    (hsk : skipWs l = c :: rest) : c ≠ backtick := by
  intro hc
  subst hc
  cases n with
  | zero => simp [parseCore] at h
  | succ n =>
    rw [parseCore.eq_def] at h
    dsimp only at h
    rw [hsk] at h
    dsimp only at h
    rw [if_neg (by decide), if_neg (by decide), if_neg (by decide),
      if_neg (by decide), if_neg (by decide), if_neg (by decide),
      if_neg (by decide), if_neg (by decide)] at h
    simp at h

theorem parseCore_value_eq_of_skipWs {l l2 : List Char}
    (h : skipWs l = skipWs l2) (n : Nat) :
    parseCore n PMode.value l = parseCore n PMode.value l2 := by
  cases n with
  | zero => rfl
  | succ n =>
    rw [parseCore.eq_def, parseCore.eq_def]
    dsimp only
    rw [h]

theorem jsonParse_inv {l : List Char} {v : Json} (h : jsonParse l = some v) :
    ∃ r, parseCore (2 * l.length + 2) PMode.value l = some (v, r) ∧
      skipWs r = [] := by
  unfold jsonParse at h
  cases hp : parseCore (2 * l.length + 2) PMode.value l with
  | none => rw [hp] at h; simp at h
  | some p =>
    obtain ⟨v0, r⟩ := p
    rw [hp] at h
    dsimp only at h
    by_cases he : (skipWs r).isEmpty
    · rw [if_pos he] at h
      simp only [Option.some.injEq] at h
      subst h
      exact ⟨r, rfl, List.isEmpty_iff.mp he⟩
    · rw [if_neg he] at h
      simp at h

theorem startsWith_self_append (p X : List Char) :
    startsWithChars p (p ++ X) = true := by
  induction p with
  | nil => rfl
  | cons a p ih => simp [startsWithChars, ih]

theorem startsWith_false_of_head {p : List Char} {a b : Char}
    {ps cs : List Char} (hp : p = a :: ps) (hne : b ≠ a) :
    startsWithChars p (b :: cs) = false := by
  subst hp
  simp [startsWithChars]
  intro he
  exact absurd he.symm hne

theorem pyStrip_wrapFence {info J : List Char} :
    pyStrip (wrapFence info J) = wrapFence info J := by
  have h1 : wrapFence info J
      = backtick :: ([backtick, backtick] ++ info ++ '\n' :: J ++ '\n' :: tick3) := by
    simp [wrapFence, tick3]
  have h2 : wrapFence info J
      = (tick3 ++ info ++ '\n' :: J ++ ['\n', backtick, backtick]) ++ [backtick] := by
    simp [wrapFence, tick3]
  exact pyStrip_eq_self h1 h2 (by decide) (by decide)

theorem splitChar_wrapFence {info J : List Char} (hinfo : '\n' ∉ info) :
    splitChar '\n' (wrapFence info J)
      = (tick3 ++ info) :: (splitChar '\n' J ++ [tick3]) := by
  have h1 : wrapFence info J = (tick3 ++ info) ++ '\n' :: (J ++ '\n' :: tick3) := by
    simp [wrapFence]
  rw [h1]
  have hmem : '\n' ∉ tick3 ++ info := by
    intro hm
    rcases List.mem_append.mp hm with hm | hm
    · simp [tick3, backtick] at hm
    · exact hinfo hm
  rw [splitChar_append_first _ hmem]
  rw [splitChar_append_last J (by intro hm; simp [tick3, backtick] at hm)]

theorem stripFence_wrapFence {info J : List Char} (hinfo : '\n' ∉ info) :
    stripFence (wrapFence info J) = J := by
  have hstart : startsWithChars tick3 (wrapFence info J) = true := by
    have h1 : wrapFence info J = tick3 ++ (info ++ '\n' :: J ++ '\n' :: tick3) := by
      simp [wrapFence]
    rw [h1]
    exact startsWith_self_append _ _
  have hlast : (wrapFence info J).getLast? = some backtick := by
    have h2 : wrapFence info J
        = (tick3 ++ info ++ '\n' :: J ++ ['\n', backtick, backtick])
          ++ [backtick] := by
      simp [wrapFence, tick3]
    rw [h2, List.getLast?_concat]
  have hlines : pySplitlines (wrapFence info J)
      = (tick3 ++ info) :: (splitChar '\n' J ++ [tick3]) := by
    unfold pySplitlines
    cases hwf : wrapFence info J with
    | nil => simp [wrapFence, tick3] at hwf
    | cons a0 rest0 =>
      dsimp only
      rw [hwf] at hlast
      rw [if_neg (by rw [hlast]; decide)]
      rw [← hwf]
      exact splitChar_wrapFence hinfo
  unfold stripFence
  rw [if_pos hstart, hlines]
  dsimp only
  have hlastD : ((tick3 ++ info) :: (splitChar '\n' J ++ [tick3])).getLastD []
      = tick3 := by
    rw [show (tick3 ++ info) :: (splitChar '\n' J ++ [tick3])
      = ((tick3 ++ info) :: splitChar '\n' J) ++ [tick3] by simp]
    simp [List.getLastD]
  rw [hlastD, if_pos (by decide)]
  simp only [List.drop_succ_cons, List.drop_zero]
  rw [List.dropLast_concat]
  exact joinChar_splitChar '\n' J

theorem parseCore_value_nil (n : Nat) : parseCore n PMode.value [] = none := by
  cases n with
  | zero => rfl
  | succ n => rw [parseCore.eq_def]; rfl

theorem stripFence_not_fence {raw : List Char}
    (h : startsWithChars tick3 raw = false) : stripFence raw = raw := by
  unfold stripFence
  rw [if_neg (by simp [h])]

theorem skipWs_ws_prefix {lead : List Char} (X : List Char)
    (h : ∀ c ∈ lead, isWs c = true) : skipWs (lead ++ X) = skipWs X := by
  induction lead with
  | nil => rfl
  | cons a lead ih =>
    have ha : isWs a = true := h a (List.mem_cons_self a lead)
    simp only [List.cons_append, skipWs, List.dropWhile_cons, ha, if_true]
    exact ih fun c hc => h c (List.mem_cons_of_mem a hc)

theorem jsonParse_pyStrip_extend {J : List Char} {es : List Json}
    (hJ : jsonParse (pyStrip J) = some (Json.arr es)) :
    jsonParse J = some (Json.arr es) := by
  obtain ⟨r, hp, hr⟩ := jsonParse_inv hJ
  obtain ⟨lead, trail, hdecomp, hlead, htrail⟩ := pyStrip_decomp J
  have hlen : (pyStrip J).length ≤ J.length := by
    conv_rhs => rw [hdecomp]
    simp
    omega
  have hp2 : parseCore (2 * J.length + 2) PMode.value (pyStrip J)
      = some (Json.arr es, r) :=
    parseCore_mono_le (by omega) hp
  have hp3 : parseCore (2 * J.length + 2) PMode.value (pyStrip J ++ trail)
      = some (Json.arr es, r ++ trail) :=
    parseCore_ws_ext _ _ _ _ _ trail htrail hp2
  have hskeq : skipWs J = skipWs (pyStrip J ++ trail) := by
    conv_lhs => rw [hdecomp]
    rw [List.append_assoc]
    exact skipWs_ws_prefix _ hlead
  have hp4 : parseCore (2 * J.length + 2) PMode.value J
      = some (Json.arr es, r ++ trail) := by
    rw [parseCore_value_eq_of_skipWs hskeq]
    exact hp3
  unfold jsonParse
  rw [hp4]
  dsimp only
  have : skipWs (r ++ trail) = [] := by
    apply skipWs_allWs
    intro c hc
    rcases List.mem_append.mp hc with hc | hc
    · exact allWs_of_skipWs_nil hr c hc
    · exact htrail c hc
  rw [this]
  rfl

theorem parse_events_of_jsonParse {J : List Char} {es : List Json}
    (hJ : jsonParse (pyStrip J) = some (Json.arr es)) :
    parse_events J = Except.ok (Json.arr es) := by
  have hne : pyStrip J ≠ [] := by
    intro he
    rw [he] at hJ
    simp [jsonParse, parseCore_value_nil] at hJ
  rcases pyStrip_shape J with he | ⟨c, t, hshape, hwc⟩
  · exact absurd he hne
  · have hsk : skipWs (pyStrip J) = c :: t := by
      rw [skipWs_pyStrip, hshape]
    obtain ⟨r, hp, hr⟩ := jsonParse_inv hJ
    have hcb : c ≠ backtick := parseCore_value_head hp hsk
    have hsf : stripFence (pyStrip J) = pyStrip J := by
      apply stripFence_not_fence
      rw [hshape]
      exact startsWith_false_of_head
        (show tick3 = backtick :: [backtick, backtick] from rfl) hcb
    unfold parse_events
    dsimp only
    rw [hsf]
    rw [if_neg (by rw [hshape]; simp)]
    rw [hJ]

/-- Shared core for the fenced-response claim: a fenced wrapping of a JSON
array text and the bare text give the same extraction result. -/
theorem parse_events_wrap_core {info J : List Char} {es : List Json}
    (hinfo : '\n' ∉ info)
    (hJ : jsonParse (pyStrip J) = some (Json.arr es)) :
    parse_events (wrapFence info J) = Except.ok (Json.arr es) := by
  have hne : pyStrip J ≠ [] := by
    intro he
    rw [he] at hJ
    simp [jsonParse, parseCore_value_nil] at hJ
  have hJne : J ≠ [] := by
    intro he
    rw [he] at hne
    exact hne rfl
  unfold parse_events
  dsimp only
  rw [pyStrip_wrapFence, stripFence_wrapFence hinfo]
  rw [if_neg (by simp [hJne])]
  rw [jsonParse_pyStrip_extend hJ]

theorem time_fraction_ignored (t frac : List Char) (h : '.' ∉ t) :
    time_str_to_seconds (t ++ '.' :: frac) = time_str_to_seconds t := by
  cases t with
  | nil =>
    have h0 : splitChar '.' (([] : List Char) ++ '.' :: frac)
        = [] :: splitChar '.' frac :=
      splitChar_append_first frac (by simp)
    simp only [List.nil_append] at h0
    unfold time_str_to_seconds
    rw [if_neg (by simp)]
    dsimp only
    simp only [List.nil_append]
    rw [h0]
    rfl
  | cons c t0 =>
    have h0 : splitChar '.' ((c :: t0) ++ '.' :: frac)
        = (c :: t0) :: splitChar '.' frac :=
      splitChar_append_first frac h
    have h1 : splitChar '.' (c :: t0) = [c :: t0] := splitChar_not_mem h
    unfold time_str_to_seconds
    rw [if_neg (by simp), if_neg (by simp)]
    dsimp only
    rw [h0, h1]
    rfl

/-! ## Claim theorems -/

/-- C1 (counterexample): the tag banana is outside the closed set, yet
insert_event succeeds, appends one row and returns the generated rowid;
no InvalidTag failure exists in db.py. -/
theorem insert_event_banana_counterexample :
    (("banana".toList) ∉ TAGS) ∧
    (insert_event ("banana".toList) none none none ("cli".toList) none
      ("2026-10-12T00:00:00+00:00".toList) emptyStore).1 = 1 ∧
    (insert_event ("banana".toList) none none none ("cli".toList) none
      ("2026-10-12T00:00:00+00:00".toList) emptyStore).2.rows.length = 1 :=
  ⟨by decide, rfl, rfl⟩

/-- C1 (amended): insert_event performs no tag validation at all: for every
tag, inside or outside the closed set, it persists exactly one new row
(the previous rows unchanged) and returns the generated rowid; membership
in the closed set is enforced only by the CLI argument parser. -/
theorem insert_event_no_validation (tag : List Char)
    (category value notes : Option (List Char)) (source : List Char)
    (timestamp : Option (List Char)) (now : List Char) (st : EventStore) :
    (insert_event tag category value notes source timestamp now st).1
      = st.nextId ∧
    (insert_event tag category value notes source timestamp now st).2.nextId
      = st.nextId + 1 ∧
    (insert_event tag category value notes source timestamp now st).2.rows
      = st.rows ++ [{ id := st.nextId,
                      timestamp :=
                        (match timestamp with
                          | none => now
                          | some t => if t.isEmpty then now else t),
                      tag := tag, category := category, value := value,
                      notes := notes, source := source }] :=
  ⟨rfl, rfl, rfl⟩

/-- C2 (counterexample): a response consisting of a JSON object (valid
JSON, not an array) is returned without error, and an empty response is
silently coerced to an empty array; neither raises MalformedResponse. -/
theorem parse_events_nonarray_counterexample :
    parse_events (("\x7b\x7d").toList) = Except.ok (Json.obj []) ∧
    parse_events ([] : List Char) = Except.ok (Json.arr []) :=
  ⟨rfl, rfl⟩

/-- C2 (amended): after stripping and removing an optional fence,
parse_events returns an empty array for an empty remainder, returns any
successfully decoded JSON value unchanged (array or not), and raises the
decode error exactly when the non-empty remainder is not valid JSON. -/
theorem parse_events_contract (resp : List Char) :
    (stripFence (pyStrip resp) = [] →
      parse_events resp = Except.ok (Json.arr [])) ∧
    (∀ v, jsonParse (stripFence (pyStrip resp)) = some v →
      parse_events resp = Except.ok v) ∧
    (stripFence (pyStrip resp) ≠ [] →
      jsonParse (stripFence (pyStrip resp)) = none →
      parse_events resp = Except.error ExtractError.malformedResponse) := by
  refine ⟨?_, ?_, ?_⟩
  · intro h
    unfold parse_events
    dsimp only
    rw [h]
    rfl
  · intro v hv
    have hne : stripFence (pyStrip resp) ≠ [] := by
      intro he
      rw [he] at hv
      simp [jsonParse, parseCore_value_nil] at hv
    unfold parse_events
    dsimp only
    rw [if_neg (by simp [hne]), hv]
  · intro hne hn
    unfold parse_events
    dsimp only
    rw [if_neg (by simp [hne]), hn]

/-- C2 (witness): a response that is not JSON raises the decode error. -/
theorem parse_events_contract_witness :
    parse_events ("xx".toList) = Except.error ExtractError.malformedResponse :=
  (parse_events_contract ("xx".toList)).2.2 (by decide) (by rfl)

/-- C3: upserting day d with fields A and then with fields B leaves exactly
one row for d, equal to B in every column, and leaves every other day of
the table unchanged; the hypothesis is the primary-key invariant of the
garmin_daily table (at most one row per day). -/
theorem upsertDailyMetrics_last_write_wins {α : Type}
    (tbl : List (GarminDailyRow α)) (d : List Char) (A B : GarminDailyRow α)
    (hA : A.day = d) (hB : B.day = d)
    (hcount : (rowsForDay tbl d).length ≤ 1) :
    rowsForDay (upsertDailyMetrics (upsertDailyMetrics tbl A) B) d = [B] ∧
    ∀ d2, d2 ≠ d →
      rowsForDay (upsertDailyMetrics (upsertDailyMetrics tbl A) B) d2
        = rowsForDay tbl d2 := by
  constructor
  · have h1 : rowsForDay (upsertDailyMetrics tbl A) d = [A] := by
      rw [← hA] at hcount ⊢
      exact upsert_same tbl A hcount
    have h2 : (rowsForDay (upsertDailyMetrics tbl A) B.day).length ≤ 1 := by
      rw [hB, h1]
      simp
    have h3 := upsert_same (upsertDailyMetrics tbl A) B h2
    rw [hB] at h3
    exact h3
  · intro d2 hd2
    rw [upsert_other _ B d2 (by rw [hB]; exact hd2),
      upsert_other _ A d2 (by rw [hA]; exact hd2)]

/-- Sample rows for the daily-metrics witnesses. -/
def rowA : GarminDailyRow (Option Int) :=
  { day := "2024-01-01".toList, steps := some 1000, rhr_avg := some 50,
    hr_avg := some 70, stress_avg := some 20, sleep_total_sec := 100,
    sleep_rem_sec := 10, calories_active := some 300,
    synced_at := "2024-01-02T00:00:00+00:00".toList }

/-- A second sample row for the same day with every field different. -/
def rowB : GarminDailyRow (Option Int) :=
  { day := "2024-01-01".toList, steps := some 2000, rhr_avg := none,
    hr_avg := none, stress_avg := some 30, sleep_total_sec := 200,
    sleep_rem_sec := 20, calories_active := none,
    synced_at := "2024-01-03T00:00:00+00:00".toList }

/-- C3 (witness): concrete double upsert of the same day. -/
theorem upsertDailyMetrics_last_write_wins_witness :
    rowsForDay (upsertDailyMetrics (upsertDailyMetrics [] rowA) rowB)
      ("2024-01-01".toList) = [rowB] :=
  (upsertDailyMetrics_last_write_wins [] ("2024-01-01".toList) rowA rowB
    rfl rfl (by simp [rowsForDay])).1

/-- C4: the clock-time parser maps 01:30:00 to 5400 seconds, ignores a
sub-second fraction appended after the first dot, and maps the empty
string and malformed inputs to 0; the Lean function is total, embedding
the catch-all except branch (no input raises). -/
theorem time_str_to_seconds_spec :
    time_str_to_seconds ("01:30:00".toList) = 5400 ∧
    (∀ t frac, '.' ∉ t →
      time_str_to_seconds (t ++ '.' :: frac) = time_str_to_seconds t) ∧
    time_str_to_seconds ([] : List Char) = 0 ∧
    time_str_to_seconds ("1:2".toList) = 0 ∧
    time_str_to_seconds ("xx:yy:zz".toList) = 0 :=
  ⟨by decide, time_fraction_ignored, by decide, by decide, by decide⟩

/-- C4 (witness): the sub-second fraction of a concrete reading is
ignored. -/
theorem time_str_to_seconds_spec_witness :
    time_str_to_seconds ("01:30:00.123456".toList)
      = time_str_to_seconds ("01:30:00".toList) := by
  have h := time_str_to_seconds_spec.2.1 ("01:30:00".toList)
    ("123456".toList) (by decide)
  simpa using h

/-- C6: a missing primary source (garmin_summary.db) makes sync raise
SourceUnavailable with the garmin_daily table untouched; with the primary
source present, sync returns the number of selected days as its count. -/
theorem sync_source_unavailable_spec {α : Type}
    (mainDb : Option (List SleepRow)) (since now : List Char)
    (health : List (GarminDailyRow α)) :
    sync (α := α) none mainDb since now health
      = (Except.error SyncError.sourceUnavailable, health) ∧
    ∀ srows : List (SummaryRow α),
      (sync (some srows) mainDb since now health).fst
        = Except.ok ((srows.filter (fun r => leChars since r.day)).length) :=
  ⟨sync_none mainDb since now health,
   fun srows => sync_some_fst srows mainDb since now health⟩

/-- C5: with the primary source present, sync succeeds for any state of
the optional secondary source (including its complete absence), and for
every selected primary-source day the resulting garmin_daily row copies
the summary columns, stamps synced_at with the run time, and derives the
sleep columns from the secondary source when that day is present there
and from the primary averages otherwise.  Hypotheses are the primary-key
invariants of the two tables. -/
theorem sync_reconciliation_spec {α : Type} (srows : List (SummaryRow α))
    (mainDb : Option (List SleepRow)) (since now : List Char)
    (health : List (GarminDailyRow α))
    (hbound : ∀ d, (rowsForDay health d).length ≤ 1)
    (hnodup : ((srows.filter (fun r => leChars since r.day)).map
      (fun r => r.day)).Nodup) :
    (sync (some srows) mainDb since now health).fst
      = Except.ok ((srows.filter (fun r => leChars since r.day)).length) ∧
    ∀ r ∈ srows.filter (fun r => leChars since r.day),
      rowsForDay (sync (some srows) mainDb since now health).snd r.day
        = [{ day := r.day, steps := r.steps, rhr_avg := r.rhr_avg,
             hr_avg := r.hr_avg, stress_avg := r.stress_avg,
             sleep_total_sec :=
               match sleepLookup mainDb since r.day with
               | some s => timeStrToSecondsOpt s.total_sleep
               | none => timeStrToSecondsOpt r.sleep_avg,
             sleep_rem_sec :=
               match sleepLookup mainDb since r.day with
               | some s => timeStrToSecondsOpt s.rem_sleep
               | none => timeStrToSecondsOpt r.rem_sleep_avg,
             calories_active := r.calories_active_avg, synced_at := now }] := by
  refine ⟨sync_some_fst srows mainDb since now health, ?_⟩
  intro r hr
  rw [sync_some_rows srows mainDb since now health hbound hnodup r hr]
  unfold buildRow
  cases hs : sleepLookup mainDb since r.day <;> simp [hs]

/-- A sample days_summary row for the reconciliation witness. -/
def summaryRow1 : SummaryRow (Option Int) :=
  { day := "2024-01-01".toList, steps := some 100, rhr_avg := some 50,
    hr_avg := some 70, stress_avg := some 5,
    sleep_avg := some ("01:30:00".toList),
    rem_sleep_avg := some ("00:30:00".toList),
    calories_active_avg := some 200 }

/-- C5 (witness): one summary day, secondary source missing entirely:
sync returns count 1 and writes the fallback-derived sleep values. -/
theorem sync_reconciliation_spec_witness :
    (sync (some [summaryRow1]) none ("2023-12-31".toList)
      ("2024-01-02T00:00:00+00:00".toList) []).fst = Except.ok 1 ∧
    rowsForDay (sync (some [summaryRow1]) none ("2023-12-31".toList)
      ("2024-01-02T00:00:00+00:00".toList) []).snd ("2024-01-01".toList)
      = [{ day := "2024-01-01".toList, steps := some 100, rhr_avg := some 50,
           hr_avg := some 70, stress_avg := some 5, sleep_total_sec := 5400,
           sleep_rem_sec := 1800, calories_active := some 200,
           synced_at := "2024-01-02T00:00:00+00:00".toList }] := by
  have h := sync_reconciliation_spec [summaryRow1] none ("2023-12-31".toList)
    ("2024-01-02T00:00:00+00:00".toList) []
    (by intro d; simp [rowsForDay]) (by decide)
  refine ⟨by simpa using h.1, ?_⟩
  have h2 := h.2 summaryRow1 (by decide)
  simp only [summaryRow1] at h2 ⊢
  rw [h2]
  rfl

/-- C9: when the stop signal fires before any audio frame arrives (no
chunks captured), record_audio produces exactly one second of silence at
the configured sample rate: sample_rate silence samples, never an empty
artifact for a positive rate. -/
theorem record_audio_min_silence {α : Type} (zero : α) (sample_rate : Nat)
    (h : 1 ≤ sample_rate) :
    record_audio zero ([] : List (List α)) sample_rate
      = List.replicate sample_rate zero ∧
    (record_audio zero ([] : List (List α)) sample_rate).length = sample_rate ∧
    record_audio zero ([] : List (List α)) sample_rate ≠ [] := by
  refine ⟨rfl, by simp [record_audio], ?_⟩
  have hlen : (record_audio zero ([] : List (List α)) sample_rate).length
      = sample_rate := by simp [record_audio]
  intro he
  rw [he] at hlen
  simp at hlen
  omega

/-- C9 (witness): the default 16 kHz rate gives 16000 silence samples. -/
theorem record_audio_min_silence_witness :
    record_audio (0 : Int) ([] : List (List Int)) 16000
      = List.replicate 16000 0 ∧
    (record_audio (0 : Int) ([] : List (List Int)) 16000).length = 16000 ∧
    record_audio (0 : Int) ([] : List (List Int)) 16000 ≠ [] :=
  record_audio_min_silence 0 16000 (by decide)

/-- C10: query_events called without an explicit limit uses the default
LIMIT of 50, so at most 50 events are returned whatever the store
contents and filters. -/
theorem query_events_default_limit (st : EventStore)
    (tag since : Option (List Char)) :
    (query_events st tag since).length ≤ 50 := by
  unfold query_events
  dsimp only
  rw [if_neg (by decide)]
  exact le_trans (List.length_take_le _ _) (by rfl)

/-- C7 (amended): query_events returns only events matching the optional
filters, sorted newest first by timestamp with timestamp ties broken
towards the most recently inserted row, truncated to a non-negative
LIMIT; and an insert immediately followed by a query for its tag returns
the new event first provided no already-stored event carries a timestamp
after the insert time (the rowid bound is the AUTOINCREMENT invariant of
the store). -/
theorem query_events_order_spec (st : EventStore)
    (tag since : Option (List Char)) (limit : Int) :
    (∀ e ∈ query_events st tag since limit, matchesFilters tag since e = true) ∧
    List.Sorted newestFirst (query_events st tag since limit) ∧
    (0 ≤ limit → (query_events st tag since limit).length ≤ limit.toNat) ∧
    (∀ (T : List Char) (category value notes : Option (List Char))
        (source now : List Char),
      (∀ e ∈ st.rows, leChars e.timestamp now = true) →
      (∀ e ∈ st.rows, e.id < st.nextId) →
      (query_events (insert_event T category value notes source none now st).2
          (some T) none).head?
        = some { id := st.nextId, timestamp := now, tag := T,
                 category := category, value := value, notes := notes,
                 source := source }) := by
  refine ⟨?_, ?_, ?_, ?_⟩
  · intro e he
    unfold query_events at he
    dsimp only at he
    by_cases hl : limit < 0
    · rw [if_pos hl] at he
      exact List.of_mem_filter
        ((List.perm_insertionSort newestFirst _).mem_iff.mp he)
    · rw [if_neg hl] at he
      have h2 := (List.take_sublist _ _).subset he
      exact List.of_mem_filter
        ((List.perm_insertionSort newestFirst _).mem_iff.mp h2)
  · unfold query_events
    dsimp only
    by_cases hl : limit < 0
    · rw [if_pos hl]
      exact List.sorted_insertionSort newestFirst _
    · rw [if_neg hl]
      exact List.Pairwise.sublist (List.take_sublist _ _)
        (List.sorted_insertionSort newestFirst _)
  · intro hl
    unfold query_events
    dsimp only
    rw [if_neg (not_lt.mpr hl)]
    exact List.length_take_le _ _
  · intro T category value notes source now hts hid
    set estar : EventRow :=
      ⟨st.nextId, now, T, category, value, notes, source⟩ with hestar
    have hstore : (insert_event T category value notes source none now st).2
        = { nextId := st.nextId + 1, rows := st.rows ++ [estar] } := rfl
    rw [hstore]
    unfold query_events
    dsimp only
    rw [if_neg (by decide)]
    set filtered := (st.rows ++ [estar]).filter (matchesFilters (some T) none)
      with hfil
    set sorted := List.insertionSort newestFirst filtered with hsort
    have hm : matchesFilters (some T) none estar = true := by
      unfold matchesFilters
      by_cases hT : T.isEmpty <;> simp [hestar, hT]
    have hmemf : estar ∈ filtered := by
      rw [hfil]
      exact List.mem_filter.mpr
        ⟨List.mem_append_right _ (List.mem_singleton.mpr rfl), hm⟩
    have hmems : estar ∈ sorted := by
      rw [hsort]
      exact (List.perm_insertionSort newestFirst filtered).mem_iff.mpr hmemf
    have hsorted : List.Sorted newestFirst sorted := by
      rw [hsort]
      exact List.sorted_insertionSort newestFirst filtered
    cases hs : sorted with
    | nil =>
      rw [hs] at hmems
      cases hmems
    | cons e0 tail =>
      have he0 : e0 = estar := by
        have hms := hmems
        rw [hs] at hms hsorted
        rcases List.mem_cons.mp hms with he | he
        · exact he.symm
        · have hnf : newestFirst e0 estar :=
            (List.pairwise_cons.mp hsorted).1 estar he
          have h1 : e0 ∈ sorted := by
            rw [hs]
            exact List.mem_cons_self _ _
          rw [hsort] at h1
          have he0f : e0 ∈ filtered :=
            (List.perm_insertionSort newestFirst filtered).mem_iff.mp h1
          have he0r : e0 ∈ st.rows ++ [estar] := by
            rw [hfil] at he0f
            exact List.mem_of_mem_filter he0f
          rcases List.mem_append.mp he0r with h0 | h0
          · exfalso
            rcases hnf with hlt | ⟨heq, hle⟩
            · have hts0 := hts e0 h0
              rw [leChars_eq_true_iff] at hts0
              have hlt2 : ltChars now e0.timestamp = true := by
                have he2 : estar.timestamp = now := by rw [hestar]
                rw [he2] at hlt
                exact hlt
              rw [hts0] at hlt2
              exact Bool.noConfusion hlt2
            · have hid0 := hid e0 h0
              have hle2 : st.nextId ≤ e0.id := by
                have he2 : estar.id = st.nextId := by rw [hestar]
                rw [he2] at hle
                exact hle
              omega
          · exact List.mem_singleton.mp h0
      have htake : List.take (Int.toNat 50) (e0 :: tail)
          = e0 :: List.take 49 tail := rfl
      rw [htake]
      simp [he0]

/-- Prior store for the C7 counterexample: one food event carrying a
caller-supplied far-future timestamp. -/
def c7PriorStore : EventStore :=
  (insert_event ("food".toList) none none none ("cli".toList)
    (some ("9999-01-01T00:00:00+00:00".toList))
    ("2026-10-12T00:00:00+00:00".toList) emptyStore).2

/-- The C7 counterexample insert: a food event logged at the current
time, immediately before the query. -/
def c7Insert : Nat × EventStore :=
  insert_event ("food".toList) none none none ("cli".toList) none
    ("2026-10-12T00:00:01+00:00".toList) c7PriorStore

/-- C7 (counterexample): insert of a food event (generated id 2)
immediately followed by a query for tag food returns the stored
future-dated event (id 1) first, not the just-inserted one. -/
theorem query_events_future_counterexample :
    c7Insert.1 = 2 ∧
    ((query_events c7Insert.2 (some ("food".toList)) none).head?).map
      (fun e => e.id) = some 1 := by
  decide

/-- C7 (witness): on an empty store the just-inserted event is returned
first. -/
theorem query_events_order_spec_witness :
    (query_events (insert_event ("food".toList) none none none ("cli".toList)
        none ("2026-10-12T00:00:00+00:00".toList) emptyStore).2
      (some ("food".toList)) none).head?
      = some { id := 1, timestamp := "2026-10-12T00:00:00+00:00".toList,
               tag := "food".toList, category := none, value := none,
               notes := none, source := "cli".toList } := by
  have h := (query_events_order_spec emptyStore (some ("food".toList))
    none 50).2.2.2 ("food".toList) none none none ("cli".toList)
    ("2026-10-12T00:00:00+00:00".toList)
    (by intro e he; simp [emptyStore] at he)
    (by intro e he; simp [emptyStore] at he)
  simpa [emptyStore] using h

/-- C8: a model response wrapping a JSON array text in a single code
fence (opening line with an optional info word, closing fence line)
extracts to exactly the same result as the bare text, namely the decoded
array. -/
theorem parse_events_fence_transparent (info J : List Char) (es : List Json)
    (hinfo : '\n' ∉ info)
    (hJ : jsonParse (pyStrip J) = some (Json.arr es)) :
    parse_events (wrapFence info J) = parse_events J ∧
    parse_events J = Except.ok (Json.arr es) := by
  have h1 := parse_events_wrap_core hinfo hJ
  have h2 := parse_events_of_jsonParse hJ
  exact ⟨h1.trans h2.symm, h2⟩

/-- C8 (witness): a concrete fenced two-element array parses like the
bare text. -/
theorem parse_events_fence_transparent_witness :
    parse_events (wrapFence ("json".toList) ("[1, 2]".toList))
      = parse_events ("[1, 2]".toList) ∧
    parse_events ("[1, 2]".toList)
      = Except.ok (Json.arr [Json.num 1, Json.num 2]) :=
  parse_events_fence_transparent ("json".toList) ("[1, 2]".toList)
    [Json.num 1, Json.num 2] (by decide) (by rfl)
